import Mathlib

/-!
Verification development for the OCR orchestration and caching engine of the
`python-OCR-date` repository.  Each Python function that the specification's
claims depend on is shallowly embedded as an executable Lean definition:

* machine floats whose uses are integer-safe (timeout multipliers, the 50%
  overlap threshold, aspect-ratio tests, scale factors) are modelled as exact
  rationals / integers; the embedded comparisons agree with the Python float
  comparisons on the integer ranges that occur in the program,
* byte strings are `List Nat`, timestamps are `Int` seconds,
* the MD5 digest is modelled by the exact byte stream fed to the hasher
  (two streams are equal iff the hasher input is equal; collisions of the
  real digest are outside the model),
* fallible I/O (unreadable image) becomes `Option`, and Python exception
  handlers that fall back to a default are embedded as that default.
-/

namespace OCRDate

/-! ## Cache fingerprints (`src/core/cache_manager.py`)

`CacheManager._full_hash` feeds a file to the hasher in 4096-byte chunks;
`CacheManager._fast_hash` feeds the first 8 KB, the last 8 KB (the
`f.seek(-8192, 2)` read, taken only when the size exceeds 16384 bytes) and the
decimal string of the size.  `CacheManager._calculate_file_hash` picks the fast
variant exactly when the file is larger than 10 MB.  The digest is modelled by
the byte stream handed to the hasher. -/

/-- The chunked read loop of `_full_hash`: `iter(lambda: f.read(4096), b"")`,
with the remaining file length as structural fuel. -/
def fullHashAux : Nat → List Nat → List Nat
  | 0, _ => []
  | _, [] => []
  | fuel + 1, l => l.take 4096 ++ fullHashAux fuel (l.drop 4096)

/-- `CacheManager._full_hash`: digest stream of the whole file content. -/
def fullHash (content : List Nat) : List Nat :=
  fullHashAux content.length content

/-- The decimal encoding of the file size, `str(file_size).encode()`. -/
def sizeBytes (size : Nat) : List Nat :=
  (toString size).toList.map Char.toNat

/-- `CacheManager._fast_hash`: head 8 KB, then (for files over 16384 bytes)
the final 8 KB, then the decimal size string. -/
def fastHash (content : List Nat) (size : Nat) : List Nat :=
  content.take 8192
    ++ (if 16384 < size then (content.drop (size - 8192)).take 8192 else [])
    ++ sizeBytes size

/-- `CacheManager._calculate_file_hash`: the fast head+tail+size digest for
files larger than 10 MB, the whole-content digest otherwise. -/
def calculateFileHash (content : List Nat) : List Nat :=
  if 10 * 1024 * 1024 < content.length then fastHash content content.length
  else fullHash content

theorem fullHashAux_eq (fuel : Nat) :
    ∀ l : List Nat, l.length ≤ fuel → fullHashAux fuel l = l := by
  induction fuel with
  | zero =>
    intro l hl
    have : l = [] := List.eq_nil_of_length_eq_zero (Nat.le_zero.mp hl)
    simp [this, fullHashAux]
  | succ n ih =>
    intro l hl
    match l with
    | [] => simp [fullHashAux]
    | a :: t =>
      have hlen : ((a :: t).drop 4096).length ≤ n := by
        simp only [List.length_drop]
        have := hl
        simp only [List.length_cons] at this
        omega
      simp only [fullHashAux, ih _ hlen, List.take_append_drop]

theorem fullHash_eq (content : List Nat) : fullHash content = content :=
  fullHashAux_eq content.length content le_rfl

/-- C7: the fingerprint computation is a pure function of the file content:
a file of at most 10 MB is digested whole; a larger file is digested from its
first 8 KB, its last 8 KB and its decimal size; repeated calls on unchanged
content therefore yield the identical fingerprint. -/
theorem calculateFileHash_spec (content : List Nat) :
    (content.length ≤ 10 * 1024 * 1024 → calculateFileHash content = content) ∧
    (10 * 1024 * 1024 < content.length →
      calculateFileHash content =
        content.take 8192 ++ (content.drop (content.length - 8192)).take 8192
          ++ sizeBytes content.length) ∧
    calculateFileHash content = calculateFileHash content := by
  refine ⟨fun h => ?_, fun h => ?_, rfl⟩
  · rw [calculateFileHash, if_neg (by omega), fullHash_eq]
  · rw [calculateFileHash, if_pos h, fastHash, if_pos (by omega)]

/-- Witness for `calculateFileHash_spec` at the concrete 3-byte file
`[7, 7, 7]`. -/
theorem calculateFileHash_spec_witness :
    calculateFileHash [7, 7, 7] = [7, 7, 7] :=
  (calculateFileHash_spec [7, 7, 7]).1 (by decide)

/-! ## ROI policy gate (`OptimizedPaddleOCREngine._should_use_roi`)

The image is modelled by its decoded dimensions (`none` when `cv2.imread`
fails).  The Python aspect-ratio test `max(w,h)/min(w,h) > 3` on machine
floats agrees with the exact integer test `max w h > 3 * min w h` for all
image dimensions, which is how it is embedded. -/

/-- The static allow-list of known-difficult files that skip ROI. -/
def difficultFiles : List String := ["2025.06.24.jpg"]

/-- `OptimizedPaddleOCREngine._should_use_roi`. -/
def shouldUseRoi (filename : String) (img : Option (Nat × Nat)) : Bool :=
  if filename ∈ difficultFiles then false
  else
    match img with
    | none => false
    | some (w, h) =>
      let pixels := w * h
      if pixels < 250000 then false
      else if 1000000 < pixels then true
      else if 3 * min w h < max w h then true
      else false

/-- C8: the ROI gate skips small images (< 250,000 px), forces ROI for large
images (> 1,000,000 px), uses ROI for mid-size images exactly when the
max/min dimension ratio exceeds 3, and always skips files on the static
difficult-file allow-list. -/
theorem shouldUseRoi_spec (filename : String) (w h : Nat) :
    (filename ∈ difficultFiles → shouldUseRoi filename (some (w, h)) = false) ∧
    (filename ∉ difficultFiles →
      (w * h < 250000 → shouldUseRoi filename (some (w, h)) = false) ∧
      (1000000 < w * h → shouldUseRoi filename (some (w, h)) = true) ∧
      (250000 ≤ w * h → w * h ≤ 1000000 →
        (shouldUseRoi filename (some (w, h)) = true ↔ 3 * min w h < max w h))) := by
  constructor
  · intro hmem
    simp [shouldUseRoi, hmem]
  · intro hmem
    refine ⟨fun hs => ?_, fun hl => ?_, fun hlo hhi => ?_⟩
    · simp [shouldUseRoi, hmem, hs]
    · simp [shouldUseRoi, hmem, Nat.not_lt.mpr (by omega : 250000 ≤ w * h), hl]
    · simp only [shouldUseRoi, if_neg hmem, Nat.not_lt.mpr hlo, if_neg,
        Nat.not_lt.mpr hhi, if_false]
      constructor
      · intro hres
        by_contra hratio
        simp [Nat.not_lt.mpr hlo, Nat.not_lt.mpr hhi, hratio] at hres
      · intro hratio
        simp [Nat.not_lt.mpr hlo, Nat.not_lt.mpr hhi, hratio]

/-- Witness for `shouldUseRoi_spec`: a 2000×1000 image (2,000,000 px) not on
the allow-list forces ROI. -/
theorem shouldUseRoi_spec_witness :
    shouldUseRoi "photo.jpg" (some (2000, 1000)) = true :=
  ((shouldUseRoi_spec "photo.jpg" 2000 1000).2 (by decide)).2.1 (by decide)

/-! ## Result formatting (`OptimizedPaddleOCREngine._format_results`)

The structured backend record (`results[0]` when it is a dict holding
`rec_texts`) carries parallel arrays of texts, scores and polygons.  A score
entry is `Option ℚ`: `none` models a value on which Python's `float()` raises,
which the per-span `try/except` turns into skipping that span.  The float
literals `0.5` and `0.2` become the exact rationals `mkRat 1 2` and
`mkRat 1 5`. -/

/-- Python `str.strip()` on the character list: drop whitespace from both
ends. -/
def stripChars (l : List Char) : List Char :=
  ((l.dropWhile Char.isWhitespace).reverse.dropWhile Char.isWhitespace).reverse

/-- Python `str.strip()`. -/
def pyStrip (s : String) : String :=
  ⟨stripChars s.data⟩

/-- A polygon point list; the default used for a span with no polygon. -/
def defaultPoly : List (ℚ × ℚ) := [(0, 0), (0, 0), (0, 0), (0, 0)]

/-- The structured record form of `results[0]`. -/
structure RecResult where
  recTexts : List String
  recScores : List (Option ℚ)
  recPolys : List (List (ℚ × ℚ))
  deriving DecidableEq

/-- One formatted text span: polygon, text, confidence. -/
abbrev Span := List (ℚ × ℚ) × String × ℚ

/-- The body of the `for i in range(len(texts))` loop of `_format_results`:
`none` when index `i` contributes nothing (skipped by the confidence floor,
the empty-text check, or the exception handler on a malformed score). -/
def formatItem (r : RecResult) (i : Nat) : Option Span :=
  let text := pyStrip (r.recTexts.getD i "")
  match r.recScores.getD i (some (mkRat 1 2)) with
  | none => none
  | some confidence =>
    if mkRat 1 5 < confidence ∧ text ≠ "" then
      some (r.recPolys.getD i defaultPoly, text, confidence)
    else none

/-- `OptimizedPaddleOCREngine._format_results` on the structured record form;
`none` models a result whose first element is not such a record, which
formats to the empty list. -/
def formatResults (results : Option RecResult) : List Span :=
  match results with
  | none => []
  | some r => (List.range r.recTexts.length).filterMap (formatItem r)

/-- C10: a span is emitted for index `i` iff its score entry is well-formed
(the missing-score default being confidence `1/2`), its confidence is
strictly above `1/5`, and its stripped text is non-empty; a malformed score
entry only skips that span. -/
theorem formatResults_spec (r : RecResult) :
    (∀ s : Span, s ∈ formatResults (some r) ↔
      ∃ i, i < r.recTexts.length ∧ formatItem r i = some s) ∧
    (∀ i, i < r.recTexts.length →
      ((formatItem r i).isSome ↔
        match r.recScores.getD i (some (mkRat 1 2)) with
        | none => False
        | some confidence =>
          mkRat 1 5 < confidence ∧ pyStrip (r.recTexts.getD i "") ≠ "")) := by
  constructor
  · intro s
    simp [formatResults, List.mem_filterMap, List.mem_range]
  · intro i _
    rw [formatItem]
    cases hsc : r.recScores.getD i (some (mkRat 1 2)) with
    | none => simp
    | some confidence =>
      by_cases hc : mkRat 1 5 < confidence ∧ pyStrip (r.recTexts.getD i "") ≠ ""
      · simp [hc]
      · simp only [if_neg hc, Option.isSome_none, Bool.false_eq_true,
          false_iff]
        exact hc

/-- Witness for `formatResults_spec`: in a record with texts
`["2025.06.24", " "]`, scores `[some 0.9]` (the second span defaulting to
confidence `1/2`), the first span is emitted and the whitespace-only second
span is not. -/
theorem formatResults_spec_witness :
    (formatItem ⟨["2025.06.24", " "], [some (mkRat 9 10)], []⟩ 0).isSome = true ∧
    (formatItem ⟨["2025.06.24", " "], [some (mkRat 9 10)], []⟩ 1).isSome = false := by
  refine ⟨((formatResults_spec ⟨["2025.06.24", " "], [some (mkRat 9 10)], []⟩).2 0
    (by decide)).mpr ?_, by decide⟩
  exact (by decide : mkRat 1 5 < mkRat 9 10 ∧ pyStrip "2025.06.24" ≠ "")

/-! ## Automatic resizing (`SmartImageProcessor.auto_resize`)

`auto_resize` keeps an image whose dimensions both lie in `[300, 1280]`,
shrinks an image with a dimension above `max_size = 1280` by the factor
`min(1280/w, 1280/h) = 1280 / max w h`, and *enlarges* an image with a
dimension below `min_size = 300` by `max(300/w, 300/h) = 300 / min w h`.
The scaled dimension `int(dim * scale)` is computed with IEEE doubles, which
do not always give the floor of the exact rational product: the two rounding
errors can land the product one ulp below an exact integer (e.g. a
2139×2139 image resizes to 1279×1279, not 1280×1280, and a 281×281 image to
299×299, not 300×300).  The double result never exceeds the exact floor
(the quotient `dim·B/d` with `d` a feasible image dimension is never within
the ≈3·10⁻¹³ error band below the next integer unless it *is* that integer)
and never falls more than one below it, so the truncation is embedded as a
parameter `pyFloor num den` — the program's value of `int((num/den as
computed in doubles))` — constrained by `FloorApprox` to the band
`[num/den − 1, num/den]`; `ratFloor` is the exact-floor instantiation, which
agrees with the program whenever every float operation involved is exact.
In both scaling branches the scale is provably bounded away from 1, so the
`scale != 1.0` guard always fires (also in doubles).  A zero dimension (or
an unreadable image) takes the exception path and returns the input
unchanged.  The result pairs the output dimensions with the `is_temp` flag
(`true` iff a resized temporary file was written). -/

/-- The exact-rational instantiation of the scaled-dimension truncation. -/
def ratFloor (num den : Nat) : Nat :=
  num / den

/-- The band IEEE doubles are confined to: `pyFloor num den` is the exact
floor of `num/den` or one less. -/
def FloorApprox (pyFloor : Nat → Nat → Nat) : Prop :=
  ∀ num den : Nat, 0 < den →
    num / den ≤ pyFloor num den + 1 ∧ pyFloor num den ≤ num / den

/-- `SmartImageProcessor.auto_resize`, on image dimensions, parameterized by
the program's float truncation. -/
def autoResize (pyFloor : Nat → Nat → Nat) (w h : Nat) : (Nat × Nat) × Bool :=
  if w = 0 ∨ h = 0 then ((w, h), false)
  else if 300 ≤ w ∧ w ≤ 1280 ∧ 300 ≤ h ∧ h ≤ 1280 then ((w, h), false)
  else if 1280 < w ∨ 1280 < h then
    ((pyFloor (w * 1280) (max w h), pyFloor (h * 1280) (max w h)), true)
  else
    ((pyFloor (w * 300) (min w h), pyFloor (h * 300) (min w h)), true)

/-- C6 counterexample: `auto_resize` *does* scale up.  At the inputs used,
every float operation of the program is exact (`300/100 = 3.0` and
`1280/2048 = 0.625` are dyadic, and the products `300.0`, `1280.0`,
`624.375` are representable doubles), so the exact truncation `ratFloor`
coincides with the IEEE computation: a 100×100 image is enlarged to
300×300, exceeding the input dimensions although the image was within the
1280 bound; and scaling does not exactly preserve the aspect ratio — a
2048×999 image shrinks to 1280×624 with 1280·999 ≠ 624·2048. -/
theorem autoResize_scales_up :
    autoResize ratFloor 100 100 = ((300, 300), true) ∧ 100 < 300 ∧
    autoResize ratFloor 2048 999 = ((1280, 624), true) ∧
    1280 * 999 ≠ 624 * 2048 := by
  decide

/-- C6 (amended): an image with both dimensions in `[300, 1280]` is returned
unchanged; an oversized image is scaled *down* — each output dimension is at
most the input's and at most 1280, and lies within one pixel below the
exact truncation of the input dimension times the common factor
`1280 / max w h`; an undersized image (within the 1280 bound but with a
dimension below 300) is scaled *up* — each output dimension is at least the
input's and within one pixel below the exact truncation of the input
dimension times the common factor `300 / min w h`. -/
theorem autoResize_spec (pyFloor : Nat → Nat → Nat)
    (hfl : FloorApprox pyFloor) (w h : Nat) (hw : 0 < w) (hh : 0 < h) :
    (300 ≤ w → w ≤ 1280 → 300 ≤ h → h ≤ 1280 →
      autoResize pyFloor w h = ((w, h), false)) ∧
    (1280 < w ∨ 1280 < h →
      (autoResize pyFloor w h).1.1 ≤ w ∧ (autoResize pyFloor w h).1.2 ≤ h ∧
      (autoResize pyFloor w h).1.1 ≤ 1280 ∧
      (autoResize pyFloor w h).1.2 ≤ 1280 ∧
      max w h * (autoResize pyFloor w h).1.1 ≤ w * 1280 ∧
      w * 1280 < max w h * ((autoResize pyFloor w h).1.1 + 2) ∧
      max w h * (autoResize pyFloor w h).1.2 ≤ h * 1280 ∧
      h * 1280 < max w h * ((autoResize pyFloor w h).1.2 + 2) ∧
      (autoResize pyFloor w h).2 = true) ∧
    (w ≤ 1280 → h ≤ 1280 → w < 300 ∨ h < 300 →
      w ≤ (autoResize pyFloor w h).1.1 ∧ h ≤ (autoResize pyFloor w h).1.2 ∧
      min w h * (autoResize pyFloor w h).1.1 ≤ w * 300 ∧
      w * 300 < min w h * ((autoResize pyFloor w h).1.1 + 2) ∧
      min w h * (autoResize pyFloor w h).1.2 ≤ h * 300 ∧
      h * 300 < min w h * ((autoResize pyFloor w h).1.2 + 2) ∧
      (autoResize pyFloor w h).2 = true) := by
  have hne : ¬(w = 0 ∨ h = 0) := by omega
  refine ⟨fun h1 h2 h3 h4 => ?_, fun hover => ?_, fun hb1 hb2 hunder => ?_⟩
  · rw [autoResize, if_neg hne, if_pos ⟨h1, h2, h3, h4⟩]
  · have hmaxpos : 0 < max w h := by omega
    obtain ⟨hwlo, hwhi⟩ := hfl (w * 1280) (max w h) hmaxpos
    obtain ⟨hhlo, hhhi⟩ := hfl (h * 1280) (max w h) hmaxpos
    have hwfl : w * 1280 / max w h ≤ w := by
      calc w * 1280 / max w h ≤ w * max w h / max w h :=
            Nat.div_le_div_right (Nat.mul_le_mul_left w (by omega))
        _ = w := Nat.mul_div_cancel w hmaxpos
    have hhfl : h * 1280 / max w h ≤ h := by
      calc h * 1280 / max w h ≤ h * max w h / max w h :=
            Nat.div_le_div_right (Nat.mul_le_mul_left h (by omega))
        _ = h := Nat.mul_div_cancel h hmaxpos
    have hwfl2 : w * 1280 / max w h ≤ 1280 := by
      calc w * 1280 / max w h ≤ max w h * 1280 / max w h :=
            Nat.div_le_div_right (Nat.mul_le_mul_right 1280 (by omega))
        _ = 1280 := Nat.mul_div_cancel_left 1280 hmaxpos
    have hhfl2 : h * 1280 / max w h ≤ 1280 := by
      calc h * 1280 / max w h ≤ max w h * 1280 / max w h :=
            Nat.div_le_div_right (Nat.mul_le_mul_right 1280 (by omega))
        _ = 1280 := Nat.mul_div_cancel_left 1280 hmaxpos
    have hwband : max w h * (w * 1280 / max w h) ≤ w * 1280 := by
      rw [Nat.mul_comm]
      exact Nat.div_mul_le_self (w * 1280) (max w h)
    have hhband : max w h * (h * 1280 / max w h) ≤ h * 1280 := by
      rw [Nat.mul_comm]
      exact Nat.div_mul_le_self (h * 1280) (max w h)
    have hwsucc := Nat.lt_mul_div_succ (w * 1280) hmaxpos
    have hhsucc := Nat.lt_mul_div_succ (h * 1280) hmaxpos
    rw [autoResize, if_neg hne, if_neg (by omega), if_pos hover]
    refine ⟨?_, ?_, ?_, ?_, ?_, ?_, ?_, ?_, rfl⟩
    · show pyFloor (w * 1280) (max w h) ≤ w
      omega
    · show pyFloor (h * 1280) (max w h) ≤ h
      omega
    · show pyFloor (w * 1280) (max w h) ≤ 1280
      omega
    · show pyFloor (h * 1280) (max w h) ≤ 1280
      omega
    · calc max w h * pyFloor (w * 1280) (max w h)
          ≤ max w h * (w * 1280 / max w h) := Nat.mul_le_mul_left _ hwhi
        _ ≤ w * 1280 := hwband
    · calc w * 1280 < max w h * (w * 1280 / max w h + 1) := hwsucc
        _ ≤ max w h * (pyFloor (w * 1280) (max w h) + 2) :=
            Nat.mul_le_mul_left _ (by omega)
    · calc max w h * pyFloor (h * 1280) (max w h)
          ≤ max w h * (h * 1280 / max w h) := Nat.mul_le_mul_left _ hhhi
        _ ≤ h * 1280 := hhband
    · calc h * 1280 < max w h * (h * 1280 / max w h + 1) := hhsucc
        _ ≤ max w h * (pyFloor (h * 1280) (max w h) + 2) :=
            Nat.mul_le_mul_left _ (by omega)
  · have hmin : min w h < 300 := by omega
    have hminpos : 0 < min w h := by omega
    obtain ⟨hwlo, hwhi⟩ := hfl (w * 300) (min w h) hminpos
    obtain ⟨hhlo, hhhi⟩ := hfl (h * 300) (min w h) hminpos
    have hwfl : w + 1 ≤ w * 300 / min w h := by
      rw [Nat.le_div_iff_mul_le hminpos]
      have h1 : min w h ≤ w := by omega
      have hsplit : w * min w h + w * (300 - min w h) = w * 300 := by
        rw [← Nat.mul_add]
        congr 1
        omega
      have h2 : w ≤ w * (300 - min w h) := by
        calc w = w * 1 := (Nat.mul_one w).symm
          _ ≤ w * (300 - min w h) := Nat.mul_le_mul_left w (by omega)
      have hexp : (w + 1) * min w h = w * min w h + min w h := by ring
      omega
    have hhfl : h + 1 ≤ h * 300 / min w h := by
      rw [Nat.le_div_iff_mul_le hminpos]
      have h1 : min w h ≤ h := by omega
      have hsplit : h * min w h + h * (300 - min w h) = h * 300 := by
        rw [← Nat.mul_add]
        congr 1
        omega
      have h2 : h ≤ h * (300 - min w h) := by
        calc h = h * 1 := (Nat.mul_one h).symm
          _ ≤ h * (300 - min w h) := Nat.mul_le_mul_left h (by omega)
      have hexp : (h + 1) * min w h = h * min w h + min w h := by ring
      omega
    have hwband : min w h * (w * 300 / min w h) ≤ w * 300 := by
      rw [Nat.mul_comm]
      exact Nat.div_mul_le_self (w * 300) (min w h)
    have hhband : min w h * (h * 300 / min w h) ≤ h * 300 := by
      rw [Nat.mul_comm]
      exact Nat.div_mul_le_self (h * 300) (min w h)
    have hwsucc := Nat.lt_mul_div_succ (w * 300) hminpos
    have hhsucc := Nat.lt_mul_div_succ (h * 300) hminpos
    rw [autoResize, if_neg hne, if_neg (by omega), if_neg (by omega)]
    refine ⟨?_, ?_, ?_, ?_, ?_, ?_, rfl⟩
    · show w ≤ pyFloor (w * 300) (min w h)
      omega
    · show h ≤ pyFloor (h * 300) (min w h)
      omega
    · calc min w h * pyFloor (w * 300) (min w h)
          ≤ min w h * (w * 300 / min w h) := Nat.mul_le_mul_left _ hwhi
        _ ≤ w * 300 := hwband
    · calc w * 300 < min w h * (w * 300 / min w h + 1) := hwsucc
        _ ≤ min w h * (pyFloor (w * 300) (min w h) + 2) :=
            Nat.mul_le_mul_left _ (by omega)
    · calc min w h * pyFloor (h * 300) (min w h)
          ≤ min w h * (h * 300 / min w h) := Nat.mul_le_mul_left _ hhhi
        _ ≤ h * 300 := hhband
    · calc h * 300 < min w h * (h * 300 / min w h + 1) := hhsucc
        _ ≤ min w h * (pyFloor (h * 300) (min w h) + 2) :=
            Nat.mul_le_mul_left _ (by omega)

/-- Witness for `autoResize_spec`, instantiated with the in-band exact
truncation: a 2000×1000 image shrinks to within the bound without growing
either dimension. -/
theorem autoResize_spec_witness :
    (autoResize ratFloor 2000 1000).1.1 ≤ 2000 ∧
    (autoResize ratFloor 2000 1000).1.2 ≤ 1000 ∧
    (autoResize ratFloor 2000 1000).1.1 ≤ 1280 ∧
    (autoResize ratFloor 2000 1000).1.2 ≤ 1280 := by
  have h := (autoResize_spec ratFloor
    (fun num den _ => ⟨Nat.le_succ _, le_rfl⟩) 2000 1000
    (by decide) (by decide)).2.1 (Or.inl (by decide))
  exact ⟨h.1, h.2.1, h.2.2.1, h.2.2.2.1⟩

/-! ## ROI region filtering and merging (`SmartROIDetector`)

A candidate region is `(x, y, w, h)` with Python integers modelled as `ℤ`.
`_regions_overlap` compares the overlap area against `min_area * 0.5` — for
integer areas this is the exact test `min_area < 2 * overlap_area`.
`_filter_and_merge_regions` clamps each candidate into the image, drops
candidates of width or height ≤ 10, sorts by `x` (Python's stable sort is
`List.insertionSort`), and then runs a greedy scan in which each candidate is
compared *only* against the most recently surviving region (the Python list's
last element, modelled by accumulating in reverse).  The two early
`return []` paths coincide with the general formula, since an empty list
folds and reverses to an empty list. -/

/-- An axis-aligned candidate rectangle `(x, y, w, h)`. -/
abbrev Region := ℤ × ℤ × ℤ × ℤ

/-- `SmartROIDetector._regions_overlap`. -/
def regionsOverlap (r1 r2 : Region) : Bool :=
  match r1, r2 with
  | (x1, y1, w1, h1), (x2, y2, w2, h2) =>
    let overlapX := max 0 (min (x1 + w1) (x2 + w2) - max x1 x2)
    let overlapY := max 0 (min (y1 + h1) (y2 + h2) - max y1 y2)
    decide (min (w1 * h1) (w2 * h2) < 2 * (overlapX * overlapY))

/-- `SmartROIDetector._merge_regions`: the bounding box of two regions. -/
def mergeRegions (r1 r2 : Region) : Region :=
  match r1, r2 with
  | (x1, y1, w1, h1), (x2, y2, w2, h2) =>
    (min x1 x2, min y1 y2,
      max (x1 + w1) (x2 + w2) - min x1 x2,
      max (y1 + h1) (y2 + h2) - min y1 y2)

/-- The clamp-into-image step of `_filter_and_merge_regions`. -/
def clampRegion (width height : ℤ) (r : Region) : Region :=
  match r with
  | (x, y, w, h) =>
    let x' := max 0 (min x (width - 1))
    let y' := max 0 (min y (height - 1))
    (x', y', min w (width - x'), min h (height - y'))

/-- The clamped and size-filtered candidate list (`unique_regions`); `shape`
is `(height, width)` as in `img.shape[:2]`. -/
def filteredRegions (regions : List Region) (shape : ℤ × ℤ) : List Region :=
  regions.filterMap fun r =>
    let c := clampRegion shape.2 shape.1 r
    if 10 < c.2.2.1 ∧ 10 < c.2.2.2 then some c else none

/-- The `x`-sorted candidate list (`sorted_regions`). -/
def sortedRegions (regions : List Region) (shape : ℤ × ℤ) : List Region :=
  (filteredRegions regions shape).insertionSort fun a b => a.1 ≤ b.1

/-- One iteration of the merge loop, with `merged_regions` kept reversed so
that the Python list's last element is the head. -/
def mergeStep (acc : List Region) (r : Region) : List Region :=
  match acc with
  | [] => [r]
  | last :: rest =>
    if regionsOverlap r last then mergeRegions r last :: rest
    else r :: last :: rest

/-- `SmartROIDetector._filter_and_merge_regions`. -/
def filterAndMergeRegions (regions : List Region) (shape : ℤ × ℤ) : List Region :=
  ((sortedRegions regions shape).foldl mergeStep []).reverse

/-- `outer` contains `inner` as a sub-rectangle. -/
def rectContains (outer inner : Region) : Prop :=
  outer.1 ≤ inner.1 ∧ outer.2.1 ≤ inner.2.1 ∧
  inner.1 + inner.2.2.1 ≤ outer.1 + outer.2.2.1 ∧
  inner.2.1 + inner.2.2.2 ≤ outer.2.1 + outer.2.2.2

theorem regionsOverlap_symm (r1 r2 : Region) :
    regionsOverlap r1 r2 = regionsOverlap r2 r1 := by
  obtain ⟨x1, y1, w1, h1⟩ := r1
  obtain ⟨x2, y2, w2, h2⟩ := r2
  simp only [regionsOverlap]
  rw [min_comm (w1 * h1), min_comm (x1 + w1), max_comm x1,
    min_comm (y1 + h1), max_comm y1]

theorem foldl_mergeStep_no_overlap :
    ∀ (l acc : List Region),
      (∀ a ∈ acc, ∀ b ∈ l, regionsOverlap b a = false) →
      l.Pairwise (fun a b => regionsOverlap b a = false) →
      l.foldl mergeStep acc = l.reverse ++ acc := by
  intro l
  induction l with
  | nil => intro acc _ _; simp
  | cons r t ih =>
    intro acc hacc hpw
    have hstep : mergeStep acc r = r :: acc := by
      match acc with
      | [] => rfl
      | last :: rest =>
        have : regionsOverlap r last = false :=
          hacc last (List.mem_cons_self last rest) r (List.mem_cons_self r t)
        simp [mergeStep, this]
    rw [List.foldl_cons, hstep,
      ih (r :: acc) ?_ (List.Pairwise.of_cons hpw)]
    · simp
    · intro a ha b hb
      rcases List.mem_cons.mp ha with rfl | ha'
      · exact (List.pairwise_cons.mp hpw).1 b hb
      · exact hacc a ha' b (List.mem_cons_of_mem r hb)

/-- C3 counterexample: on the candidate list
`[(0,0,20,20), (1,100,20,20), (2,0,20,20)]` in a 500×500 image, no merging
happens (each candidate fails the overlap test against the region last
surviving when it is scanned), yet the first and third surviving regions
overlap by 360 px², which exceeds 50% of the smaller area 400 px². -/
theorem filterAndMergeRegions_counterexample :
    ((0, 0, 20, 20) : Region) ∈
      filterAndMergeRegions [(0, 0, 20, 20), (1, 100, 20, 20), (2, 0, 20, 20)]
        (500, 500) ∧
    ((2, 0, 20, 20) : Region) ∈
      filterAndMergeRegions [(0, 0, 20, 20), (1, 100, 20, 20), (2, 0, 20, 20)]
        (500, 500) ∧
    ((0, 0, 20, 20) : Region) ≠ (2, 0, 20, 20) ∧
    regionsOverlap (0, 0, 20, 20) (2, 0, 20, 20) = true := by
  decide

/-- C3 (amended): a candidate is compared only against the most recently
surviving region, merging into the bounding rectangle of both on overlap
above 50% of the smaller area; the no-overlap invariant on the surviving
list is guaranteed only when the x-sorted filtered candidates are already
pairwise non-overlapping, in which case the scan merges nothing and returns
them unchanged. -/
theorem filterAndMergeRegions_spec (regions : List Region) (shape : ℤ × ℤ)
    (h : (sortedRegions regions shape).Pairwise
      (fun a b => regionsOverlap b a = false)) :
    (∀ r1 r2 : Region, rectContains (mergeRegions r1 r2) r1 ∧
      rectContains (mergeRegions r1 r2) r2 ∧
      ∀ c : Region, rectContains c r1 → rectContains c r2 →
        rectContains c (mergeRegions r1 r2)) ∧
    filterAndMergeRegions regions shape = sortedRegions regions shape ∧
    (filterAndMergeRegions regions shape).Pairwise
      (fun a b => regionsOverlap a b = false) := by
  have heq : filterAndMergeRegions regions shape = sortedRegions regions shape := by
    rw [filterAndMergeRegions,
      foldl_mergeStep_no_overlap (sortedRegions regions shape) []
        (by intro a ha; exact absurd ha (List.not_mem_nil a)) h]
    simp
  refine ⟨fun r1 r2 => ?_, heq, ?_⟩
  · obtain ⟨x1, y1, w1, h1⟩ := r1
    obtain ⟨x2, y2, w2, h2⟩ := r2
    refine ⟨?_, ?_, ?_⟩
    · simp only [mergeRegions, rectContains]
      omega
    · simp only [mergeRegions, rectContains]
      omega
    · intro c hc1 hc2
      obtain ⟨cx, cy, cw, ch⟩ := c
      simp only [mergeRegions, rectContains] at hc1 hc2 ⊢
      omega
  · rw [heq]
    exact h.imp fun {a b} hab => (regionsOverlap_symm a b).trans hab

/-- Witness for `filterAndMergeRegions_spec`: two disjoint candidates in a
500×500 image survive unmerged and non-overlapping. -/
theorem filterAndMergeRegions_spec_witness :
    filterAndMergeRegions [(0, 0, 20, 20), (200, 200, 20, 20)] (500, 500) =
      sortedRegions [(0, 0, 20, 20), (200, 200, 20, 20)] (500, 500) :=
  (filterAndMergeRegions_spec [(0, 0, 20, 20), (200, 200, 20, 20)] (500, 500)
    (by decide)).2.1

/-! ## Result cache (`CacheManager`)

The SQLite table `ocr_cache` is modelled as a list of entries in rowid
order; the `UNIQUE` column is `file_hash`.  Timestamps are integer seconds;
`time.time()` at an operation is passed in as `now`.  The serialized result
payload is opaque (`json.dumps`/`json.loads` round-trip is identity in the
model), so the entry type is parametric in the payload type `α`. -/

/-- One row of the `ocr_cache` table. -/
structure CacheEntry (α : Type) where
  fileHash : List Nat
  fileSize : Nat
  fileMtime : Int
  ocrResults : α
  processingTime : ℚ
  strategyUsed : String
  createdAt : Int
  accessedAt : Int
  accessCount : Nat

/-- The dict returned by `get_cached_result` on a hit. -/
structure CacheHit (α : Type) where
  ocrResults : α
  processingTime : ℚ
  strategyUsed : String
  fromCache : Bool

/-- The expiry window `max_cache_days * 24 * 3600` in seconds. -/
def cacheWindow (days : Nat) : Int :=
  (days : Int) * 24 * 3600

/-- The `WHERE file_hash = ? AND file_size = ? AND file_mtime = ?` match. -/
def entryMatches {α : Type} (e : CacheEntry α) (hash : List Nat) (size : Nat)
    (mtime : Int) : Bool :=
  decide (e.fileHash = hash ∧ e.fileSize = size ∧ e.fileMtime = mtime)

/-- `CacheManager.get_cached_result` on a file with the given content and
mtime: returns the optional hit and the table after the call (expired match
deleted, or hit's `accessed_at`/`access_count` updated). -/
def getCachedResult {α : Type} (days : Nat) (st : List (CacheEntry α))
    (content : List Nat) (mtime now : Int) :
    Option (CacheHit α) × List (CacheEntry α) :=
  let hash := calculateFileHash content
  let size := content.length
  match st.find? (fun e => entryMatches e hash size mtime) with
  | none => (none, st)
  | some e =>
    if cacheWindow days < now - e.createdAt then
      (none, st.filter fun e' => decide (e'.fileHash ≠ hash))
    else
      (some ⟨e.ocrResults, e.processingTime, e.strategyUsed, true⟩,
        st.map fun e' =>
          if e'.fileHash = hash then
            { e' with accessedAt := now, accessCount := e'.accessCount + 1 }
          else e')

theorem getCachedResult_of_find_none {α : Type} {days : Nat}
    {st : List (CacheEntry α)} {content : List Nat} {mtime now : Int}
    (hfind : st.find? (fun e => entryMatches e (calculateFileHash content)
      content.length mtime) = none) :
    getCachedResult days st content mtime now = (none, st) := by
  rw [getCachedResult, hfind]

theorem getCachedResult_of_find_expired {α : Type} {days : Nat}
    {st : List (CacheEntry α)} {content : List Nat} {mtime now : Int}
    {e : CacheEntry α}
    (hfind : st.find? (fun e' => entryMatches e' (calculateFileHash content)
      content.length mtime) = some e)
    (hexp : cacheWindow days < now - e.createdAt) :
    getCachedResult days st content mtime now =
      (none, st.filter fun e' =>
        decide (e'.fileHash ≠ calculateFileHash content)) := by
  simp only [getCachedResult, hfind]
  rw [if_pos hexp]

theorem getCachedResult_of_find_fresh {α : Type} {days : Nat}
    {st : List (CacheEntry α)} {content : List Nat} {mtime now : Int}
    {e : CacheEntry α}
    (hfind : st.find? (fun e' => entryMatches e' (calculateFileHash content)
      content.length mtime) = some e)
    (hexp : ¬cacheWindow days < now - e.createdAt) :
    getCachedResult days st content mtime now =
      (some ⟨e.ocrResults, e.processingTime, e.strategyUsed, true⟩,
        st.map fun e' =>
          if e'.fileHash = calculateFileHash content then
            { e' with accessedAt := now, accessCount := e'.accessCount + 1 }
          else e') := by
  simp only [getCachedResult, hfind]
  rw [if_neg hexp]

/-- C2: a lookup returns a stored result only for an entry matching the
file's hash, size and mtime whose age is within the expiry window, with its
`accessed_at`/`access_count` updated in the table before the hit is
returned; an expired match is deleted and reported as a miss, and so is an
absent match. -/
theorem getCachedResult_spec {α : Type} (days : Nat) (st : List (CacheEntry α))
    (content : List Nat) (mtime now : Int) :
    (∀ hit, (getCachedResult days st content mtime now).1 = some hit →
      ∃ e ∈ st,
        e.fileHash = calculateFileHash content ∧
        e.fileSize = content.length ∧ e.fileMtime = mtime ∧
        now - e.createdAt ≤ cacheWindow days ∧
        hit = ⟨e.ocrResults, e.processingTime, e.strategyUsed, true⟩ ∧
        { e with accessedAt := now, accessCount := e.accessCount + 1 } ∈
          (getCachedResult days st content mtime now).2) ∧
    (∀ e, st.find? (fun e' => entryMatches e' (calculateFileHash content)
        content.length mtime) = some e →
      cacheWindow days < now - e.createdAt →
      (getCachedResult days st content mtime now).1 = none ∧
      ∀ e' ∈ (getCachedResult days st content mtime now).2,
        e'.fileHash ≠ calculateFileHash content) ∧
    (st.find? (fun e' => entryMatches e' (calculateFileHash content)
        content.length mtime) = none →
      getCachedResult days st content mtime now = (none, st)) := by
  refine ⟨?_, ?_, ?_⟩
  · intro hit hhit
    cases hfind : st.find? (fun e => entryMatches e (calculateFileHash content)
        content.length mtime) with
    | none =>
      rw [getCachedResult_of_find_none hfind] at hhit
      exact absurd hhit (by simp)
    | some e =>
      by_cases hexp : cacheWindow days < now - e.createdAt
      · rw [getCachedResult_of_find_expired hfind hexp] at hhit
        exact absurd hhit (by simp)
      · rw [getCachedResult_of_find_fresh hfind hexp] at hhit
        have hmatch := List.find?_some hfind
        simp only [entryMatches, decide_eq_true_eq] at hmatch
        obtain ⟨hm1, hm2, hm3⟩ := hmatch
        refine ⟨e, List.mem_of_find?_eq_some hfind, hm1, hm2, hm3,
          by omega, by simpa using hhit.symm, ?_⟩
        rw [getCachedResult_of_find_fresh hfind hexp]
        show _ ∈ st.map fun e' : CacheEntry α =>
          if e'.fileHash = calculateFileHash content then
            { e' with accessedAt := now, accessCount := e'.accessCount + 1 }
          else e'
        refine List.mem_map.mpr ⟨e, List.mem_of_find?_eq_some hfind, ?_⟩
        rw [if_pos hm1]
  · intro e hfind hexp
    rw [getCachedResult_of_find_expired hfind hexp]
    refine ⟨rfl, ?_⟩
    intro e' he'
    have he'' : e' ∈ st.filter fun x : CacheEntry α =>
        decide (x.fileHash ≠ calculateFileHash content) := he'
    have hp := List.of_mem_filter he''
    simp only [decide_eq_true_eq] at hp
    exact hp
  · intro hfind
    exact getCachedResult_of_find_none hfind

/-- Witness for `getCachedResult_spec`: looking up the two-byte file `[1, 2]`
in an empty cache misses and leaves the cache empty. -/
theorem getCachedResult_spec_witness :
    getCachedResult (α := Nat) 30 [] [1, 2] 0 100 = (none, []) :=
  (getCachedResult_spec (α := Nat) 30 [] [1, 2] 0 100).2.2 rfl

/-! ### Saving and eviction (`CacheManager.save_result` / `_cleanup_cache`)

`save_result` upserts by the `UNIQUE file_hash` column (`INSERT OR REPLACE`
removes any row with the same hash and appends the fresh row, whose
`access_count` takes the column default 1), then runs `_cleanup_cache`:
delete rows with `created_at < now - window`, and if more than
`max_cache_size` rows remain, delete the surplus rows with the smallest
`accessed_at` (`ORDER BY accessed_at ASC LIMIT excess`; among equal
timestamps the scan deletes the earliest row, which the model mirrors by
removing the first row attaining the minimum, once per surplus row). -/

/-- Remove the first entry attaining the minimal `accessed_at`. -/
def removeEntryWithMinAccess {α : Type} : List (CacheEntry α) → List (CacheEntry α)
  | [] => []
  | e :: rest =>
    if rest.all fun e' => decide (e.accessedAt ≤ e'.accessedAt) then rest
    else e :: removeEntryWithMinAccess rest

/-- Delete the `k` oldest-accessed entries. -/
def evictOldest {α : Type} : Nat → List (CacheEntry α) → List (CacheEntry α)
  | 0, st => st
  | k + 1, st => evictOldest k (removeEntryWithMinAccess st)

/-- `CacheManager._cleanup_cache`. -/
def cleanupCache {α : Type} (days maxSize : Nat) (st : List (CacheEntry α))
    (now : Int) : List (CacheEntry α) :=
  let st1 := st.filter fun e => decide (¬(e.createdAt < now - cacheWindow days))
  if maxSize < st1.length then evictOldest (st1.length - maxSize) st1 else st1

/-- `CacheManager.save_result`. -/
def saveResult {α : Type} (days maxSize : Nat) (st : List (CacheEntry α))
    (content : List Nat) (mtime : Int) (results : α) (ptime : ℚ)
    (strategy : String) (now : Int) : List (CacheEntry α) :=
  let hash := calculateFileHash content
  cleanupCache days maxSize
    ((st.filter fun e => decide (e.fileHash ≠ hash)) ++
      [⟨hash, content.length, mtime, results, ptime, strategy, now, now, 1⟩])
    now

/-- The arguments of one `save_result` call, `time` being `time.time()` at
the call. -/
structure SaveOp (α : Type) where
  content : List Nat
  mtime : Int
  results : α
  ptime : ℚ
  strategy : String
  time : Int

/-- The row inserted for a save operation. -/
def mkEntry {α : Type} (op : SaveOp α) : CacheEntry α :=
  ⟨calculateFileHash op.content, op.content.length, op.mtime, op.results,
    op.ptime, op.strategy, op.time, op.time, 1⟩

/-- One `save_result` call for an operation record. -/
def saveStep {α : Type} (days maxSize : Nat) (st : List (CacheEntry α))
    (op : SaveOp α) : List (CacheEntry α) :=
  saveResult days maxSize st op.content op.mtime op.results op.ptime
    op.strategy op.time

/-- A sequence of `save_result` calls starting from an empty cache. -/
def applyOps {α : Type} (days maxSize : Nat) (ops : List (SaveOp α)) :
    List (CacheEntry α) :=
  ops.foldl (saveStep days maxSize) []

theorem removeEntryWithMinAccess_length {α : Type} :
    ∀ st : List (CacheEntry α), st ≠ [] →
      (removeEntryWithMinAccess st).length = st.length - 1 := by
  intro st
  induction st with
  | nil => intro h; exact absurd rfl h
  | cons e rest ih =>
    intro _
    rw [removeEntryWithMinAccess]
    by_cases hall : rest.all (fun e' => decide (e.accessedAt ≤ e'.accessedAt)) = true
    · rw [if_pos hall]; simp
    · rw [if_neg hall]
      have hne : rest ≠ [] := by
        intro h
        subst h
        exact hall rfl
      have hlen : 1 ≤ rest.length := by
        cases rest with
        | nil => exact absurd rfl hne
        | cons _ _ => simp
      simp only [List.length_cons, ih hne]
      omega

theorem evictOldest_length {α : Type} :
    ∀ (k : Nat) (st : List (CacheEntry α)), k ≤ st.length →
      (evictOldest k st).length = st.length - k := by
  intro k
  induction k with
  | zero => intro st _; simp [evictOldest]
  | succ n ih =>
    intro st hk
    have hne : st ≠ [] := by
      intro h
      subst h
      simp at hk
    rw [evictOldest, ih (removeEntryWithMinAccess st)
      (by rw [removeEntryWithMinAccess_length st hne]; omega),
      removeEntryWithMinAccess_length st hne]
    omega

theorem cleanupCache_length_le {α : Type} (days maxSize : Nat)
    (st : List (CacheEntry α)) (now : Int) :
    (cleanupCache days maxSize st now).length ≤ maxSize := by
  simp only [cleanupCache]
  split_ifs with h
  · rw [evictOldest_length _ _ (by omega)]
    omega
  · omega

theorem removeEntryWithMinAccess_cons_of_le {α : Type} (e : CacheEntry α)
    (rest : List (CacheEntry α))
    (h : ∀ e' ∈ rest, e.accessedAt ≤ e'.accessedAt) :
    removeEntryWithMinAccess (e :: rest) = rest := by
  rw [removeEntryWithMinAccess, if_pos]
  rw [List.all_eq_true]
  intro x hx
  exact decide_eq_true (h x hx)

theorem evictOldest_of_sorted {α : Type} :
    ∀ (k : Nat) (st : List (CacheEntry α)),
      st.Pairwise (fun a b => a.accessedAt < b.accessedAt) →
      evictOldest k st = st.drop k := by
  intro k
  induction k with
  | zero => intro st _; simp [evictOldest]
  | succ n ih =>
    intro st hs
    cases st with
    | nil =>
      rw [evictOldest]
      have h0 : removeEntryWithMinAccess ([] : List (CacheEntry α)) = [] := rfl
      rw [h0, ih [] List.Pairwise.nil]
      simp
    | cons e rest =>
      rw [evictOldest,
        removeEntryWithMinAccess_cons_of_le e rest
          (fun e' he' => le_of_lt ((List.pairwise_cons.mp hs).1 e' he')),
        ih rest (List.pairwise_cons.mp hs).2]
      rfl

theorem cleanupCache_of_sorted {α : Type} (days maxSize : Nat)
    (st : List (CacheEntry α)) (now : Int)
    (hs : st.Pairwise fun a b => a.accessedAt < b.accessedAt)
    (hfresh : ∀ e ∈ st, ¬(e.createdAt < now - cacheWindow days)) :
    cleanupCache days maxSize st now = st.drop (st.length - maxSize) := by
  have hfilter : (st.filter fun e =>
      decide (¬(e.createdAt < now - cacheWindow days))) = st := by
    rw [List.filter_eq_self]
    intro e he
    exact decide_eq_true (hfresh e he)
  simp only [cleanupCache, hfilter]
  split_ifs with h
  · exact evictOldest_of_sorted _ st hs
  · rw [Nat.sub_eq_zero_of_le (by omega), List.drop_zero]

theorem saveStep_eq {α : Type} (days maxSize : Nat) (done : List (SaveOp α))
    (o : SaveOp α)
    (hdone : done.Pairwise fun a b => a.time < b.time)
    (hhash : ∀ d ∈ done, calculateFileHash d.content ≠ calculateFileHash o.content)
    (htime : ∀ d ∈ done, d.time < o.time)
    (hwin : ∀ d ∈ done, o.time - d.time ≤ cacheWindow days) :
    saveStep days maxSize ((done.map mkEntry).drop (done.length - maxSize)) o =
      (done.map mkEntry ++ [mkEntry o]).drop (done.length + 1 - maxSize) := by
  have hwd : (0 : Int) ≤ cacheWindow days := by
    have : (0 : Int) ≤ (days : Int) := Int.natCast_nonneg days
    simp only [cacheWindow]
    positivity
  have hSmem : ∀ e ∈ (done.map mkEntry).drop (done.length - maxSize),
      ∃ d ∈ done, e = mkEntry d := by
    intro e he
    have h1 : e ∈ done.map mkEntry := List.mem_of_mem_drop he
    obtain ⟨d, hd, hde⟩ := List.mem_map.mp h1
    exact ⟨d, hd, hde.symm⟩
  have hfil : ((done.map mkEntry).drop (done.length - maxSize)).filter
      (fun e => decide (e.fileHash ≠ calculateFileHash o.content)) =
      (done.map mkEntry).drop (done.length - maxSize) := by
    rw [List.filter_eq_self]
    intro e he
    obtain ⟨d, hd, rfl⟩ := hSmem e he
    exact decide_eq_true (hhash d hd)
  have hsorted : (((done.map mkEntry).drop (done.length - maxSize)) ++
      [mkEntry o]).Pairwise (fun a b => a.accessedAt < b.accessedAt) := by
    rw [List.pairwise_append]
    refine ⟨?_, List.pairwise_singleton _ _, ?_⟩
    · refine List.Pairwise.sublist (List.drop_sublist _ _) ?_
      exact List.Pairwise.map mkEntry (fun a b h => h) hdone
    · intro a ha b hb
      obtain ⟨d, hd, rfl⟩ := hSmem a ha
      rw [List.mem_singleton.mp hb]
      exact htime d hd
  have hfresh : ∀ e ∈ (((done.map mkEntry).drop (done.length - maxSize)) ++
      [mkEntry o]),
      ¬(e.createdAt < o.time - cacheWindow days) := by
    intro e he
    rcases List.mem_append.mp he with he' | he'
    · obtain ⟨d, hd, rfl⟩ := hSmem e he'
      have := hwin d hd
      simp only [mkEntry]
      omega
    · rw [List.mem_singleton.mp he']
      simp only [mkEntry]
      omega
  rw [saveStep, saveResult]
  rw [hfil]
  show cleanupCache days maxSize
      ((done.map mkEntry).drop (done.length - maxSize) ++ [mkEntry o]) o.time =
    (done.map mkEntry ++ [mkEntry o]).drop (done.length + 1 - maxSize)
  rw [cleanupCache_of_sorted days maxSize _ o.time hsorted hfresh]
  have hDlen : (done.map mkEntry).length = done.length := List.length_map _ _
  have hSlen : ((done.map mkEntry).drop (done.length - maxSize)).length =
      done.length - (done.length - maxSize) := by
    rw [List.length_drop, hDlen]
  rw [List.drop_append_eq_append_drop, List.drop_append_eq_append_drop,
    List.drop_drop]
  have hidx1 : done.length - maxSize +
      ((((done.map mkEntry).drop (done.length - maxSize)) ++
        [mkEntry o]).length - maxSize) =
      done.length + 1 - maxSize := by
    simp only [List.length_append, hSlen, List.length_singleton]
    omega
  have hidx2 : (((done.map mkEntry).drop (done.length - maxSize)) ++
      [mkEntry o]).length - maxSize -
      ((done.map mkEntry).drop (done.length - maxSize)).length =
      done.length + 1 - maxSize - (done.map mkEntry).length := by
    simp only [List.length_append, hSlen, List.length_singleton, hDlen]
    omega
  rw [hidx1, hidx2]

theorem applyOps_go {α : Type} (days maxSize : Nat) :
    ∀ (rest done : List (SaveOp α)),
      ((done ++ rest).Pairwise fun a b =>
        calculateFileHash a.content ≠ calculateFileHash b.content) →
      ((done ++ rest).Pairwise fun a b => a.time < b.time) →
      (∀ a ∈ done ++ rest, ∀ b ∈ done ++ rest,
        b.time - a.time ≤ cacheWindow days) →
      rest.foldl (saveStep days maxSize)
          ((done.map mkEntry).drop (done.length - maxSize)) =
        ((done ++ rest).map mkEntry).drop ((done ++ rest).length - maxSize) := by
  intro rest
  induction rest with
  | nil =>
    intro done _ _ _
    simp
  | cons o t ih =>
    intro done h1 h2 h3
    have hassoc : done ++ o :: t = (done ++ [o]) ++ t := by
      rw [List.append_assoc, List.singleton_append]
    have hdone : done.Pairwise fun a b => a.time < b.time :=
      (List.pairwise_append.mp h2).1
    have hcross2 := (List.pairwise_append.mp h2).2.2
    have hcross1 := (List.pairwise_append.mp h1).2.2
    have hstep := saveStep_eq days maxSize done o hdone
      (fun d hd => hcross1 d hd o (List.mem_cons_self o t))
      (fun d hd => hcross2 d hd o (List.mem_cons_self o t))
      (fun d hd => h3 d (List.mem_append_left _ hd) o
        (List.mem_append_right _ (List.mem_cons_self o t)))
    rw [List.foldl_cons, hstep]
    have hrw : done.map mkEntry ++ [mkEntry o] = (done ++ [o]).map mkEntry := by
      rw [List.map_append]
      rfl
    have hlenrw : done.length + 1 = (done ++ [o]).length := by
      simp
    rw [hrw, hlenrw,
      ih (done ++ [o]) (by rwa [← hassoc]) (by rwa [← hassoc])
        (by rw [← hassoc]; exact h3)]
    rw [← hassoc]

/-- C5: every `save_result` call leaves at most `max_cache_size` entries;
and for a sequence of saves of pairwise-distinct files at strictly
increasing times, all within the expiry window of each other, the final
cache is exactly the last `max_cache_size` saves — i.e. saving
`capacity + k` distinct unexpired entries leaves exactly `capacity`
entries, the most recently accessed ones. -/
theorem saveResult_spec {α : Type} (days maxSize : Nat) (ops : List (SaveOp α))
    (h1 : ops.Pairwise fun a b =>
      calculateFileHash a.content ≠ calculateFileHash b.content)
    (h2 : ops.Pairwise fun a b => a.time < b.time)
    (h3 : ∀ a ∈ ops, ∀ b ∈ ops, b.time - a.time ≤ cacheWindow days) :
    (∀ (st : List (CacheEntry α)) (content : List Nat) (mtime : Int)
        (results : α) (ptime : ℚ) (strategy : String) (now : Int),
      (saveResult days maxSize st content mtime results ptime strategy
        now).length ≤ maxSize) ∧
    applyOps days maxSize ops = (ops.map mkEntry).drop (ops.length - maxSize) ∧
    (maxSize ≤ ops.length → (applyOps days maxSize ops).length = maxSize) := by
  have hmain : applyOps days maxSize ops =
      (ops.map mkEntry).drop (ops.length - maxSize) := by
    have := applyOps_go days maxSize ops []
      (by simpa using h1) (by simpa using h2) (by simpa using h3)
    simpa [applyOps] using this
  refine ⟨?_, hmain, ?_⟩
  · intro st content mtime results ptime strategy now
    rw [saveResult]
    exact cleanupCache_length_le days maxSize _ now
  · intro hle
    rw [hmain, List.length_drop, List.length_map]
    omega

/-- Witness for `saveResult_spec`: three saves of distinct one-byte files at
times 0, 1, 2 into a capacity-2 cache leave exactly 2 entries. -/
theorem saveResult_spec_witness :
    (applyOps 30 2 [⟨[0], 0, 10, 0, "traditional", 0⟩,
      ⟨[1], 0, 11, 0, "traditional", 1⟩,
      ⟨[2], 0, 12, 0, "traditional", 2⟩]).length = 2 :=
  (saveResult_spec (α := Nat) 30 2 _ (by decide) (by decide) (by decide)).2.2
    (by decide)

/-! ## Strategy orchestration (`OptimizedPaddleOCREngine`)

`_process_with_strategies` first consults `ImageAnalyzer`; a successful
analysis recommending `enhanced`, `aggressive` or `super_aggressive`
*replaces* the strategy list with a fixed reordering, while a failed
analysis or a `standard` recommendation keeps the caller's list (modelled by
`Option Strategy`, `none` covering both).  For each strategy it preprocesses
the image, scales the base timeout (`int(t*1.2)` for enhanced — exactly
`12*t/10` on the integer timeouts in use — and `int(t*1.5) = 15*t/10`
otherwise, `standard` keeping `t`), invokes the backend once, and stops at
the first strategy whose formatted result is non-empty; the backend is
modelled as a function from (image path, strategy) to the optional
structured record it returns after that strategy's transform (`none`
covering failure, timeout, and empty results).  The returned trace lists
each backend invocation as (path, strategy, timeout). -/

/-- The processing strategies. -/
inductive Strategy where
  | standard
  | enhanced
  | aggressive
  | superAggressive
  deriving DecidableEq

/-- The per-strategy timeout: 1.0 / 1.2 / 1.5 times the base. -/
def strategyTimeout (t : Nat) : Strategy → Nat
  | .standard => t
  | .enhanced => 12 * t / 10
  | _ => 15 * t / 10

/-- The base strategy list used by `ocr` for whole-image processing. -/
def defaultStrategies : List Strategy :=
  [.standard, .enhanced, .aggressive]

/-- The analyzer-driven reordering at the top of `_process_with_strategies`. -/
def adjustStrategies (rec : Option Strategy) (strategies : List Strategy) :
    List Strategy :=
  match rec with
  | some .superAggressive => [.superAggressive, .aggressive, .enhanced, .standard]
  | some .aggressive => [.aggressive, .enhanced, .standard]
  | some .enhanced => [.enhanced, .standard, .aggressive]
  | _ => strategies

/-- The strategy loop of `_process_with_strategies`: returns the invocation
trace and the formatted spans of the first success (empty if all fail). -/
def processStrategiesGo (backend : String → Strategy → Option RecResult)
    (path : String) (t : Nat) :
    List Strategy → List (String × Strategy × Nat) × List Span
  | [] => ([], [])
  | s :: rest =>
    if (formatResults (backend path s)).isEmpty then
      let r := processStrategiesGo backend path t rest
      ((path, s, strategyTimeout t s) :: r.1, r.2)
    else ([(path, s, strategyTimeout t s)], formatResults (backend path s))

/-- `OptimizedPaddleOCREngine._process_with_strategies`; `recOf` gives the
analyzer's recommendation for a path. -/
def processWithStrategies (backend : String → Strategy → Option RecResult)
    (recOf : String → Option Strategy) (path : String)
    (strategies : List Strategy) (t : Nat) :
    List (String × Strategy × Nat) × List Span :=
  processStrategiesGo backend path t (adjustStrategies (recOf path) strategies)

/-- `OptimizedPaddleOCREngine._process_roi_regions`: each cropped region is
processed with the `standard` strategy at the unscaled base timeout; if no
region yields spans, fall back to `_process_with_strategies` on
`roi_paths[0]` with the base list `["standard", "enhanced"]`. -/
def processRoiRegions (backend : String → Strategy → Option RecResult)
    (recOf : String → Option Strategy) (roiPaths : List String) (t : Nat) :
    List (String × Strategy × Nat) × List Span :=
  let roiTrace := roiPaths.map fun p => (p, Strategy.standard, t)
  let allResults := (roiPaths.map fun p =>
    formatResults (backend p .standard)).flatten
  if allResults.isEmpty then
    let fb := processWithStrategies backend recOf (roiPaths.headD "")
      [.standard, .enhanced] t
    (roiTrace ++ fb.1, fb.2)
  else (roiTrace, allResults)

/-- A backend record with one accepted span, used in concrete scenarios. -/
def okResult : RecResult :=
  ⟨["2025.06.24"], [some (mkRat 9 10)], []⟩

theorem processStrategiesGo_all_fail
    (backend : String → Strategy → Option RecResult) (path : String) (t : Nat) :
    ∀ strats : List Strategy,
      (∀ s ∈ strats, formatResults (backend path s) = []) →
      processStrategiesGo backend path t strats =
        (strats.map fun s => (path, s, strategyTimeout t s), []) := by
  intro strats
  induction strats with
  | nil => intro _; rfl
  | cons s rest ih =>
    intro h
    have hs : formatResults (backend path s) = [] :=
      h s (List.mem_cons_self s rest)
    simp [processStrategiesGo, hs,
      ih fun x hx => h x (List.mem_cons_of_mem s hx)]

theorem processStrategiesGo_first_success
    (backend : String → Strategy → Option RecResult) (path : String) (t : Nat) :
    ∀ (l₁ : List Strategy) (s : Strategy) (l₂ : List Strategy),
      (∀ x ∈ l₁, formatResults (backend path x) = []) →
      formatResults (backend path s) ≠ [] →
      processStrategiesGo backend path t (l₁ ++ s :: l₂) =
        ((l₁.map fun x => (path, x, strategyTimeout t x)) ++
          [(path, s, strategyTimeout t s)],
          formatResults (backend path s)) := by
  intro l₁
  induction l₁ with
  | nil =>
    intro s l₂ _ hs
    cases hfr : formatResults (backend path s) with
    | nil => exact absurd hfr hs
    | cons a as => simp [processStrategiesGo, hfr]
  | cons x rest ih =>
    intro s l₂ h1 hs
    have hx : formatResults (backend path x) = [] :=
      h1 x (List.mem_cons_self x rest)
    simp [processStrategiesGo, hx,
      ih s l₂ (fun y hy => h1 y (List.mem_cons_of_mem x hy)) hs]

theorem processStrategiesGo_paths
    (backend : String → Strategy → Option RecResult) (path : String) (t : Nat) :
    ∀ strats : List Strategy,
      ∀ e ∈ (processStrategiesGo backend path t strats).1, e.1 = path := by
  intro strats
  induction strats with
  | nil => intro e he; simp [processStrategiesGo] at he
  | cons s rest ih =>
    intro e he
    by_cases hfr : (formatResults (backend path s)).isEmpty
    · simp only [processStrategiesGo, if_pos hfr, List.mem_cons] at he
      rcases he with rfl | he'
      · rfl
      · exact ih e he'
    · simp only [processStrategiesGo, if_neg hfr, List.mem_singleton] at he
      subst he
      rfl

/-- C1 counterexample: when the image analyzer recommends `enhanced`, the
strategy iteration does *not* start with `standard`: with a backend that
succeeds on every strategy, the single invocation made is
(`enhanced`, timeout `int(15*1.2) = 18`), not `standard`. -/
theorem processWithStrategies_counterexample :
    (processWithStrategies (fun _ _ => some okResult)
      (fun _ => some .enhanced) "img" defaultStrategies 15).1 =
      [("img", .enhanced, 18)] ∧
    Strategy.enhanced ≠ Strategy.standard := by
  decide

/-- C1 (amended): the iterated strategy list is the analyzer-adjusted list —
the caller's `[standard, enhanced, aggressive]` when analysis fails or
recommends `standard`, and a fixed recommendation-first reordering
otherwise; each attempted strategy is invoked once at the multiplier-scaled
timeout (1.0 / 1.2 / 1.5, floored); the loop stops at the first strategy
with a non-empty formatted result and returns its spans, and returns an
empty outcome after attempting every strategy otherwise; every invocation
is on the given (whole) image path. -/
theorem processWithStrategies_spec
    (backend : String → Strategy → Option RecResult)
    (recOf : String → Option Strategy) (path : String) (t : Nat) :
    ((∀ s ∈ adjustStrategies (recOf path) defaultStrategies,
        formatResults (backend path s) = []) →
      processWithStrategies backend recOf path defaultStrategies t =
        ((adjustStrategies (recOf path) defaultStrategies).map
          fun s => (path, s, strategyTimeout t s), [])) ∧
    (∀ (l₁ : List Strategy) (s : Strategy) (l₂ : List Strategy),
      adjustStrategies (recOf path) defaultStrategies = l₁ ++ s :: l₂ →
      (∀ x ∈ l₁, formatResults (backend path x) = []) →
      formatResults (backend path s) ≠ [] →
      processWithStrategies backend recOf path defaultStrategies t =
        ((l₁.map fun x => (path, x, strategyTimeout t x)) ++
          [(path, s, strategyTimeout t s)],
          formatResults (backend path s))) ∧
    (∀ e ∈ (processWithStrategies backend recOf path defaultStrategies t).1,
      e.1 = path) ∧
    strategyTimeout t .standard = t ∧
    strategyTimeout t .enhanced = 12 * t / 10 ∧
    strategyTimeout t .aggressive = 15 * t / 10 := by
  refine ⟨?_, ?_, ?_, rfl, rfl, rfl⟩
  · intro h
    exact processStrategiesGo_all_fail backend path t _ h
  · intro l₁ s l₂ hsplit h1 hs
    rw [processWithStrategies, hsplit]
    exact processStrategiesGo_first_success backend path t l₁ s l₂ h1 hs
  · exact processStrategiesGo_paths backend path t _

/-- Witness for `processWithStrategies_spec`: no recommendation, backend
failing on `standard` and succeeding on `enhanced`: the trace is the
`standard` attempt at timeout 15 followed by the `enhanced` success at
timeout 18. -/
theorem processWithStrategies_spec_witness :
    processWithStrategies
      (fun _ s => match s with | .enhanced => some okResult | _ => none)
      (fun _ => none) "img" defaultStrategies 15 =
      ([("img", .standard, 15), ("img", .enhanced, 18)],
        formatResults (some okResult)) :=
  (processWithStrategies_spec
    (fun _ s => match s with | .enhanced => some okResult | _ => none)
    (fun _ => none) "img" 15).2.1
    [.standard] .enhanced [.aggressive] (by decide) (by decide) (by decide)

/-- C4 counterexample: with two cropped regions `roi0`, `roi1` (from an
original image `orig`) and a backend yielding no spans anywhere, the ROI
fallback invokes the multi-strategy loop on the cropped file `roi0`
(≠ `orig`) with only `standard` and `enhanced` — no `aggressive` attempt
appears anywhere in the trace. -/
theorem processRoiRegions_counterexample :
    processRoiRegions (fun _ _ => none) (fun _ => none) ["roi0", "roi1"] 15 =
      ([("roi0", .standard, 15), ("roi1", .standard, 15),
        ("roi0", .standard, 15), ("roi0", .enhanced, 18)], []) ∧
    ("roi0" : String) ≠ "orig" ∧
    (∀ e ∈ (processRoiRegions (fun _ _ => none) (fun _ => none)
        ["roi0", "roi1"] 15).1, e.2.1 ≠ Strategy.aggressive) := by
  decide

/-- C4 (amended): when every ROI region yields zero accepted spans, the
fallback runs the multi-strategy processing on the *first cropped region*
(`roi_paths[0]`, itself one of the crops, not the original whole image) with
the base strategy list `[standard, enhanced]`; its spans become the result
and every fallback invocation is on that cropped path. -/
theorem processRoiRegions_spec
    (backend : String → Strategy → Option RecResult)
    (recOf : String → Option Strategy) (roiPaths : List String) (t : Nat)
    (hne : roiPaths ≠ [])
    (hfail : ∀ p ∈ roiPaths, formatResults (backend p .standard) = []) :
    processRoiRegions backend recOf roiPaths t =
      ((roiPaths.map fun p => (p, Strategy.standard, t)) ++
        (processWithStrategies backend recOf (roiPaths.headD "")
          [.standard, .enhanced] t).1,
        (processWithStrategies backend recOf (roiPaths.headD "")
          [.standard, .enhanced] t).2) ∧
    roiPaths.headD "" ∈ roiPaths ∧
    ∀ e ∈ (processWithStrategies backend recOf (roiPaths.headD "")
        [.standard, .enhanced] t).1,
      e.1 = roiPaths.headD "" := by
  have hflat : (roiPaths.map fun p =>
      formatResults (backend p .standard)).flatten = [] := by
    rw [List.flatten_eq_nil_iff]
    intro l hl
    obtain ⟨p, hp, rfl⟩ := List.mem_map.mp hl
    exact hfail p hp
  refine ⟨?_, ?_, processStrategiesGo_paths backend (roiPaths.headD "") t _⟩
  · simp [processRoiRegions, hflat]
  · cases roiPaths with
    | nil => exact absurd rfl hne
    | cons p rest => exact List.mem_cons_self p rest

/-- Witness for `processRoiRegions_spec`: both crops fail, so the result is
the fallback on the first crop, whose path is one of the crops. -/
theorem processRoiRegions_spec_witness :
    (["roi0", "roi1"] : List String).headD "" ∈
      (["roi0", "roi1"] : List String) :=
  (processRoiRegions_spec (fun _ _ => none) (fun _ => none) ["roi0", "roi1"]
    15 (by decide) (by decide)).2.1

/-! ## Temporary-file lifetime accounting (`ocr` / `_process_with_smart_preprocessing`)

File-system bookkeeping for one `ocr()` call on the non-ROI path: paths are
numbers, `0` is the input image, and every `tempfile.mkstemp` takes the next
fresh number.  `auto_resize` writes a temp file exactly when the image needs
resizing; `enhance_for_ocr` always writes one.  For the `enhanced` /
`aggressive` / `super_aggressive` branches,
`_process_with_smart_preprocessing` appends the intermediate resized file to
a *local* `temp_files` list that is never returned or deleted — the caller
only learns the final path and its `is_temp` flag, appends it to the
`ocr`-level `temp_files`, and the `finally` block unlinks only that list.
Each helper returns `(processedPath, isTemp, createdTempFiles, nextFresh)`. -/

/-- `SmartImageProcessor.auto_resize`, file effects only. -/
def autoResizeFiles (needsResize : Bool) (src fresh : Nat) :
    Nat × Bool × List Nat × Nat :=
  if needsResize then (fresh, true, [fresh], fresh + 1)
  else (src, false, [], fresh)

/-- `SmartImageProcessor.enhance_for_ocr`, file effects only: always writes
a new temp file. -/
def enhanceForOcrFiles (_src fresh : Nat) : Nat × Bool × List Nat × Nat :=
  (fresh, true, [fresh], fresh + 1)

/-- `OptimizedPaddleOCREngine._process_with_smart_preprocessing`, file
effects only: `standard` resizes; the other strategies resize and then
enhance, reporting only the enhancement output as temporary. -/
def preprocessFiles (needsResize : Bool) (strategy : Strategy)
    (imagePath fresh : Nat) : Nat × Bool × List Nat × Nat :=
  match strategy with
  | .standard => autoResizeFiles needsResize imagePath fresh
  | _ =>
    match autoResizeFiles needsResize imagePath fresh with
    | (rPath, _, rCreated, f1) =>
      match enhanceForOcrFiles rPath f1 with
      | (ePath, eTemp, eCreated, f2) => (ePath, eTemp, rCreated ++ eCreated, f2)

/-- The strategy loop of `ocr` on image path 0, tracking the `temp_files`
list the `finally` block will delete and the full list of temp files
actually created; `succeeds s` says whether strategy `s` yields accepted
spans (stopping the loop). -/
def ocrStrategyFiles (needsResize : Bool) (succeeds : Strategy → Bool) :
    List Strategy → Nat → List Nat → List Nat → List Nat × List Nat
  | [], _, tempFiles, created => (tempFiles, created)
  | s :: rest, fresh, tempFiles, created =>
    match preprocessFiles needsResize s 0 fresh with
    | (p, isTemp, newCreated, fresh') =>
      let tempFiles' := tempFiles ++ (if isTemp then [p] else [])
      let created' := created ++ newCreated
      if succeeds s then (tempFiles', created')
      else ocrStrategyFiles needsResize succeeds rest fresh' tempFiles' created'

/-- The files the `finally` block of `ocr` deletes. -/
def ocrDeletedFiles (needsResize : Bool) (succeeds : Strategy → Bool)
    (strategies : List Strategy) : List Nat :=
  (ocrStrategyFiles needsResize succeeds strategies 1 [] []).1

/-- Every temp file created during the `ocr` call. -/
def ocrCreatedFiles (needsResize : Bool) (succeeds : Strategy → Bool)
    (strategies : List Strategy) : List Nat :=
  (ocrStrategyFiles needsResize succeeds strategies 1 [] []).2

/-- The temp files that survive the call. -/
def ocrLeakedFiles (needsResize : Bool) (succeeds : Strategy → Bool)
    (strategies : List Strategy) : List Nat :=
  (ocrCreatedFiles needsResize succeeds strategies).filter fun f =>
    decide (f ∉ ocrDeletedFiles needsResize succeeds strategies)

/-- C9 evaluated at a failing input: on an oversized image whose `standard`
attempt fails and whose `enhanced` attempt succeeds, the call creates temp
files 1 (standard's resize), 2 (enhanced's intermediate resize) and 3
(enhanced's output), but the `finally` block deletes only `temp_files =
[1, 3]`: the intermediate resized file 2 survives the call. -/
theorem ocr_leaks_temp_file :
    ocrLeakedFiles true (fun s => decide (s = Strategy.enhanced))
      defaultStrategies = [2] ∧
    ocrCreatedFiles true (fun s => decide (s = Strategy.enhanced))
      defaultStrategies = [1, 2, 3] ∧
    ocrDeletedFiles true (fun s => decide (s = Strategy.enhanced))
      defaultStrategies = [1, 3] := by
  decide

end OCRDate
